import Mathlib

/-!
Shallow embedding of `ytdlp_plugins/__init__.py` (plugin discovery, loading,
override registration and debug reporting for yt-dlp) and proofs about it.

Python strings are modelled as Lean `String`; the Python string operations
used by the source (`str.split(".")`, `str.startswith`, `str.endswith`,
`".".join`) are implemented below over character lists so that all
definitions evaluate inside the kernel.  Filesystem paths are modelled as
lists of path components (`PathC`); `pathlib.Path.joinpath` is list append.
-/

namespace YP

/-- Python `s.split(".")` on the character level: splits into groups
separated by `'.'`; `"".split(".") == [""]`. -/
def splitCharsDot : List Char → List (List Char)
  | [] => [[]]
  | c :: cs =>
    let r := splitCharsDot cs
    if c = '.' then [] :: r
    else
      match r with
      | [] => [[c]]
      | g :: gs => (c :: g) :: gs

/-- Python `fullname.split(".")`. -/
def splitDots (s : String) : List String :=
  (splitCharsDot s.toList).map (fun g => String.mk g)

/-- Python `a.startswith(b)`. -/
def strStartsWith (a b : String) : Bool :=
  b.toList.isPrefixOf a.toList

/-- Python `a.endswith(b)`. -/
def strEndsWith (a b : String) : Bool :=
  b.toList.isSuffixOf a.toList

/-- Python `a + "." + b` (used by `".".join` in `PluginFinder.partition`). -/
def dotJoin (a b : String) : String :=
  String.mk (a.toList ++ '.' :: b.toList)

/-- Python dictionaries with string keys, in insertion order. -/
abbrev Dict (V : Type) := List (String × V)

/-- Python `d[k]` lookup (first pair with the key; well-formed dicts have
unique keys). -/
def dictGet {V : Type} (d : Dict V) (k : String) : Option V :=
  (d.find? (fun p => p.1 = k)).map (fun p => p.2)

/-- Python `d.keys()`. -/
def dictKeys {V : Type} (d : Dict V) : List String :=
  d.map (fun p => p.1)

/-- Python `d.values()`. -/
def dictValues {V : Type} (d : Dict V) : List V :=
  d.map (fun p => p.2)

/-- Python `d[k] = v`: an existing key keeps its position and gets the new
value; a new key is appended at the end. -/
def dictUpdate {V : Type} (d : Dict V) (k : String) (v : V) : Dict V :=
  if d.any (fun p => p.1 = k) then
    d.map (fun p => if p.1 = k then (k, v) else p)
  else
    d ++ [(k, v)]

/-- Python `d.update(e)` for a dict (or pair list) `e`, later pairs winning. -/
def dictUpdateMany {V : Type} (d e : Dict V) : Dict V :=
  e.foldl (fun acc p => dictUpdate acc p.1 p.2) d

/-- Python `dict(pairs)`. -/
def dictOfPairs {V : Type} (l : List (String × V)) : Dict V :=
  dictUpdateMany [] l

end YP

deriving instance DecidableEq for Except

namespace YP

/-- A top-level member of a loaded plugin module, as seen by
`inspect.getmembers`: its attribute name in the module namespace, whether it
is a class, and the class attributes `__name__` and `__module__` inspected by
`check_predicate`. -/
structure Member where
  attr : String
  objIsClass : Bool
  objName : String
  objModule : String
deriving DecidableEq

/-- A candidate submodule produced by `iter_modules`: its dotted module name
and the outcome of importing it (`.error` models an exception raised during
the import, `.ok` gives the loaded module's top-level members). -/
structure ModCand where
  name : String
  loadResult : Except String (List Member)
deriving DecidableEq

/-- `check_predicate(obj)` from `load_plugins.gen_predicate(package_name)`:
`isclass(obj) and obj.__name__.endswith(suffix) and
obj.__module__.startswith(package_name)`. -/
def check_predicate (suffix package_name : String) (m : Member) : Bool :=
  m.objIsClass && strEndsWith m.objName suffix &&
    strStartsWith m.objModule package_name

/-- Insertion step of the by-attribute-name sort performed by
`inspect.getmembers`. -/
def insertByAttr (m : Member) : List Member → List Member
  | [] => [m]
  | x :: xs =>
    if m.attr ≤ x.attr then m :: x :: xs else x :: insertByAttr m xs

/-- `inspect.getmembers(module, pred)`: members sorted by attribute name,
filtered by the predicate. -/
def getmembers (pred : Member → Bool) (members : List Member) : List Member :=
  (members.foldr insertByAttr []).filter pred

/-- `dict(getmembers(module, gen_predicate(module_name)))` from
`load_plugins`: the harvested capability classes of one module, keyed by
attribute name. -/
def module_classes (suffix module_name : String) (members : List Member) :
    Dict Member :=
  dictOfPairs
    ((getmembers (check_predicate suffix module_name) members).map
      (fun m => (m.attr, m)))

/-- One iteration of the `load_plugins` loop, acting on the accumulated
`classes` dict and the list of printed warnings (modelled by the failing
module names).  An import failure prints a warning and continues; a success
harvests `module_classes` and merges every key that does not collide with a
key already present. -/
def load_step (suffix : String) (acc : Dict Member × List String)
    (mod : ModCand) : Dict Member × List String :=
  match mod.loadResult with
  | .error _ => (acc.1, acc.2 ++ [mod.name])
  | .ok members =>
    let mcs := module_classes suffix mod.name members
    let name_collisions :=
      (dictKeys acc.1).filter (fun k => (dictKeys mcs).contains k)
    (dictUpdateMany acc.1
        (mcs.filter (fun p => !(name_collisions.contains p.1))),
      acc.2)

/-- `load_plugins(name, suffix)`: one loading pass over the candidate
submodules enumerated by `iter_modules(name)` (passed here as `mods`),
returning the merged capability dict and the warnings emitted for failing
modules. -/
def load_plugins (suffix : String) (mods : List ModCand) :
    Dict Member × List String :=
  mods.foldl (load_step suffix) ([], [])

/-- Classes component of `load_step` (the warning log does not influence
it). -/
def load_classes_step (suffix : String) (acc : Dict Member)
    (mod : ModCand) : Dict Member :=
  match mod.loadResult with
  | .error _ => acc
  | .ok members =>
    let mcs := module_classes suffix mod.name members
    let name_collisions :=
      (dictKeys acc).filter (fun k => (dictKeys mcs).contains k)
    dictUpdateMany acc (mcs.filter (fun p => !(name_collisions.contains p.1)))

/-- Whether importing a candidate module raised. -/
def failed (m : ModCand) : Bool :=
  match m.loadResult with
  | .error _ => true
  | .ok _ => false

end YP

namespace YP

-- Concrete fixtures used by the closed counterexample/witness theorems.

/-- A capability class `FooIE` defined at top level of module
`ytdlp_plugins.extractor.a`. -/
def memberFooA : Member :=
  ⟨"FooIE", true, "FooIE", "ytdlp_plugins.extractor.a"⟩

/-- A capability class `FooIE` defined at top level of module
`ytdlp_plugins.extractor.b`. -/
def memberFooB : Member :=
  ⟨"FooIE", true, "FooIE", "ytdlp_plugins.extractor.b"⟩

/-- A module that loads successfully and defines `FooIE`. -/
def modA : ModCand := ⟨"ytdlp_plugins.extractor.a", .ok [memberFooA]⟩

/-- A second, distinct module that also defines `FooIE`. -/
def modB : ModCand := ⟨"ytdlp_plugins.extractor.b", .ok [memberFooB]⟩

/-- A module whose import raises. -/
def modBad : ModCand := ⟨"ytdlp_plugins.extractor.bad", .error "boom"⟩

/-- A class whose `__module__` is `"ytdlp_plugins.extractor.mx"`, a strict
extension of the loading module's name `"ytdlp_plugins.extractor.m"`. -/
def memberWeird : Member :=
  ⟨"WeirdIE", true, "WeirdIE", "ytdlp_plugins.extractor.mx"⟩

/-- The module `ytdlp_plugins.extractor.m` exposing `memberWeird`. -/
def modM : ModCand := ⟨"ytdlp_plugins.extractor.m", .ok [memberWeird]⟩

end YP

namespace YP

/-- A filesystem path, as its list of components (`pathlib.Path`;
`joinpath` is list append). -/
abbrev PathC := List String

/-- The exceptions relevant to archive scanning: `FileNotFoundError`
(missing file) and `zipfile.BadZipFile` (unreadable/corrupt archive). -/
inductive ZipErr where
  | fileNotFound : ZipErr
  | badZipFile : ZipErr
deriving DecidableEq

/-- The filesystem as seen by `PluginFinder`: directory and file tests, and
opening an archive to list its member paths (`ZipFile(...).namelist()`),
which can fail. -/
structure FS where
  isDir : PathC → Bool
  isFile : PathC → Bool
  openZip : PathC → Except ZipErr (List PathC)

/-- `PluginFinder._zip_content_cache`: archive path to cached member
paths. -/
abbrev ZipCache := List (PathC × List PathC)

/-- Cache lookup (`archive in self._zip_content_cache`). -/
def cacheLookup (c : ZipCache) (a : PathC) : Option (List PathC) :=
  (c.find? (fun p => p.1 = a)).map (fun p => p.2)

/-- Python `path in file.parents` for relative paths: `path` is a proper
ancestor prefix of `file`. -/
def inParentsB (path file : PathC) : Bool :=
  path.isPrefixOf file && path.length < file.length

/-- Python `Path(name).suffix` of a single path component: the substring
from the last dot, empty when the dot is absent, leading or trailing. -/
def nameSuffix (s : String) : String :=
  let cs := s.toList
  let tailPart := cs.reverse.takeWhile (fun c => c ≠ '.')
  if cs.contains '.' then
    let i := cs.length - 1 - tailPart.length
    if 0 < i ∧ i < cs.length - 1 then String.mk ('.' :: tailPart.reverse)
    else ""
  else ""

/-- `Path.suffix` of a component path (suffix of its last component). -/
def pathSuffix (p : PathC) : String :=
  match p.getLast? with
  | some s => nameSuffix s
  | none => ""

/-- `PluginFinder.zip_has_dir(archive, path)` with the content cache
threaded explicitly: on a cache miss the archive is opened (which can
raise) and its member list cached. -/
def zip_has_dir (fs : FS) (c : ZipCache) (archive path : PathC) :
    Except ZipErr (Bool × ZipCache) :=
  match cacheLookup c archive with
  | some names => .ok (names.any (fun f => inParentsB path f), c)
  | none =>
    match fs.openZip archive with
    | .error e => .error e
    | .ok names =>
      .ok (names.any (fun f => inParentsB path f), (archive, names) :: c)

/-- `dict.fromkeys(sys.path).keys()`: duplicates collapsed, first
occurrence keeping its position. -/
def dedupKeepFirst (seen : List PathC) : List PathC → List PathC
  | [] => []
  | x :: xs =>
    if seen.contains x then dedupKeepFirst seen xs
    else x :: dedupKeepFirst (x :: seen) xs

/-- The archive suffixes accepted by `search_locations`. -/
def archiveSuffixes : List String := [".zip", ".egg", ".whl"]

/-- The loop body of `PluginFinder.search_locations` over the (already
deduplicated) search-path entries.  A directory containing the namespace
chain contributes `path.joinpath(*parts)`; an archive file is consulted via
`zip_has_dir` under `suppress(FileNotFoundError)`, so a missing archive
contributes nothing while any other archive error propagates. -/
def search_loop (fs : FS) (parts : PathC) :
    ZipCache → List PathC → Except ZipErr (List PathC × ZipCache)
  | c, [] => .ok ([], c)
  | c, p :: rest =>
    let candidate := p ++ parts
    if fs.isDir candidate then
      match search_loop fs parts c rest with
      | .error e => .error e
      | .ok (locs, c2) => .ok (candidate :: locs, c2)
    else if fs.isFile p && archiveSuffixes.contains (pathSuffix p) then
      match zip_has_dir fs c p parts with
      | .error .fileNotFound => search_loop fs parts c rest
      | .error .badZipFile => .error .badZipFile
      | .ok (found, c2) =>
        if found then
          match search_loop fs parts c2 rest with
          | .error e => .error e
          | .ok (locs, c3) => .ok (candidate :: locs, c3)
        else search_loop fs parts c2 rest
    else search_loop fs parts c rest

/-- `PluginFinder.search_locations(fullname)`: split the dotted name,
deduplicate `sys.path` keeping first occurrences, and scan every entry. -/
def search_locations (fs : FS) (sysPath : List PathC) (c : ZipCache)
    (fullname : String) : Except ZipErr (List PathC × ZipCache) :=
  search_loop fs (splitDots fullname) c (dedupKeepFirst [] sysPath)

/-- Whether one search-path entry contributes a location for `parts`: it is
a directory containing the chain, or a readable archive file with an
accepted suffix whose member list contains the chain as a proper
ancestor. -/
def contributes (fs : FS) (parts : PathC) (p : PathC) : Bool :=
  fs.isDir (p ++ parts) ||
    (fs.isFile p && archiveSuffixes.contains (pathSuffix p) &&
      (match fs.openZip p with
       | .ok names => names.any (fun f => inParentsB parts f)
       | .error _ => false))

/-- Every cached member list agrees with what opening the archive
returns. -/
def cacheGood (fs : FS) (c : ZipCache) : Prop :=
  ∀ a names, (a, names) ∈ c → fs.openZip a = .ok names

/-- No entry of `ps` is an unreadable (corrupt) archive: whenever the
archive branch of the scan would open it, opening does not raise
`BadZipFile`. -/
def noBadZip (fs : FS) (parts : PathC) (ps : List PathC) : Prop :=
  ∀ p ∈ ps, fs.isDir (p ++ parts) = false → fs.isFile p = true →
    archiveSuffixes.contains (pathSuffix p) = true →
    fs.openZip p ≠ .error .badZipFile

/-- `PluginFinder.partition(name)`: `accumulate(name.split("."), join)`. -/
def partitionAux (acc : String) : List String → List String
  | [] => [acc]
  | b :: rest => acc :: partitionAux (dotJoin acc b) rest

/-- All dotted ancestor prefixes of `name`, the full name included. -/
def partition (name : String) : List String :=
  match splitDots name with
  | [] => []
  | x :: rest => partitionAux x rest

/-- Left fold of dotted joining, the accumulator of `accumulate`. -/
def dotFold (acc : String) (l : List String) : String :=
  l.foldl dotJoin acc

/-- The `j`-th (0-based) dotted ancestor of a dotted name: the join of its
first `j + 1` dot-separated segments. -/
def dotted_ancestor (name : String) (j : Nat) : String :=
  match splitDots name with
  | [] => ""
  | x :: rest => dotFold x (rest.take j)

/-- `PluginFinder.__init__(*packages)`: the recognized package set is the
union of the partitions of the requested names (set semantics, modelled as
a duplicate-free insertion-ordered list), and the content cache starts
empty. -/
structure PluginFinder where
  packages : List String
  zip_content_cache : ZipCache
deriving DecidableEq

/-- Constructs the finder from the requested namespace names. -/
def PluginFinder.ofPackages (names : List String) : PluginFinder :=
  ⟨names.foldl
      (fun acc n => acc ++ (partition n).filter (fun q => !(acc.contains q)))
      [],
    []⟩

/-- The `ModuleSpec` built by `find_spec` for a recognized namespace with
contributing locations. -/
structure VSpec where
  name : String
  is_package : Bool
  submodule_search_locations : List PathC
deriving DecidableEq

/-- `PluginFinder.find_spec(fullname)`: `None` for unrecognized names;
otherwise scan, and `None` again when no location contributes, else a
namespace-package spec carrying the locations. -/
def find_spec (fs : FS) (f : PluginFinder) (sysPath : List PathC)
    (fullname : String) : Except ZipErr (Option VSpec × ZipCache) :=
  if fullname ∈ f.packages then
    match search_locations fs sysPath f.zip_content_cache fullname with
    | .error e => .error e
    | .ok (locs, c2) =>
      if locs = [] then .ok (none, c2)
      else .ok (some ⟨fullname, true, locs⟩, c2)
  else .ok (none, f.zip_content_cache)

/-- The finder inserted by `initialize()`:
`PluginFinder(f"{PACKAGE_NAME}.extractor", f"{PACKAGE_NAME}.postprocessor")`
with `PACKAGE_NAME = "ytdlp_plugins"`. -/
def the_finder : PluginFinder :=
  PluginFinder.ofPackages
    ["ytdlp_plugins.extractor", "ytdlp_plugins.postprocessor"]

/-- The process-wide state touched by `initialize()`: the `_INITIALIZED`
flag and `sys.meta_path`. -/
structure SysState where
  initDone : Bool
  metaPath : List PluginFinder
deriving DecidableEq

/-- `initialize()`: returns immediately when the flag is set, otherwise
inserts the finder at the front of `sys.meta_path` and sets the flag (the
PyInstaller plugin-directory copy touches neither field). -/
def init_system (s : SysState) : SysState :=
  if s.initDone then s else ⟨true, the_finder :: s.metaPath⟩

end YP

namespace YP

/-- The host state mutated by `add_plugins()` for the extractor side:
`extractor.__dict__` (name lookup table) and `extractor._ALL_CLASSES` (the
ordered list of all implementations).  Class objects are values of an
arbitrary type `V`. -/
structure ExtractorHost (V : Type) where
  moduleDict : Dict V
  all_classes : List V
deriving DecidableEq

/-- The extractor half of `add_plugins()` given the loaded plugin map:
`extractor.__dict__.update(ie_plugins)` and
`extractor._ALL_CLASSES[:0] = ie_plugins.values()` (a prepend; nothing is
removed from the list). -/
def add_plugins {V : Type} (host : ExtractorHost V) (ie_plugins : Dict V) :
    ExtractorHost V :=
  { moduleDict := dictUpdateMany host.moduleDict ie_plugins
    all_classes := dictValues ie_plugins ++ host.all_classes }

/-- A registered capability class as seen by `plugin_debug_header`: whether
`hasattr(cls, "IE_NAME")`, the outcome of evaluating `cls().IE_NAME` (which
may raise), and `getfile(cls)`. -/
structure PlugClass where
  hasIeName : Bool
  ieNameVal : Except String String
  file : String
deriving DecidableEq

/-- Python `repr` of a string (single quotes, written escaped). -/
def quoteRepr (s : String) : String :=
  "\x27" ++ s ++ "\x27"

/-- `f"{name!r}" if name.startswith(alt_name) else f"{name!r} [{alt_name}]"`. -/
def format_full_name (name alt_name : String) : String :=
  if strStartsWith name alt_name then quoteRepr name
  else quoteRepr name ++ " [" ++ alt_name ++ "]"

/-- `path.relative_to(Path.cwd())` under `suppress(ValueError)`: `relCwd`
returns the relative form when the path is under the working directory. -/
def entry_path (relCwd : String → Option String) (file : String) : String :=
  match relCwd file with
  | some q => q
  | none => file

/-- The `plugin_list` construction loop of `plugin_debug_header` over
`_FOUND.items()`: for each entry the display name is `cls().IE_NAME` when
the attribute exists (an exception from that evaluation propagates), else
the registry key; the pair (path, formatted name) is appended. -/
def plugin_debug_list (relCwd : String → Option String) :
    List (String × PlugClass) → Except String (List (String × String))
  | [] => .ok []
  | (name, cls) :: rest =>
    match (if cls.hasIeName then cls.ieNameVal else .ok name) with
    | .error e => .error e
    | .ok alt_name =>
      match plugin_debug_list relCwd rest with
      | .error e => .error e
      | .ok tail =>
        .ok ((entry_path relCwd cls.file, format_full_name name alt_name)
          :: tail)

end YP

namespace YP

-- Concrete filesystem and host fixtures for the closed theorems.

/-- A filesystem with a single corrupt archive `stale.zip` on the search
path: it exists as a file, nothing is a directory, and opening it raises
`BadZipFile`. -/
def fsCorrupt : FS :=
  { isDir := fun _ => false
    isFile := fun p => p = ["stale.zip"]
    openZip := fun p =>
      if p = ["stale.zip"] then .error .badZipFile
      else .error .fileNotFound }

/-- A filesystem with one plugin root directory and one missing archive:
`root/ytdlp_plugins/extractor` exists as a directory chain, and
`gone.zip` is on the search path but opening it raises
`FileNotFoundError`. -/
def fsMixed : FS :=
  { isDir := fun p => p = ["root", "ytdlp_plugins", "extractor"] ∨ p = ["root"]
    isFile := fun p => p = ["gone.zip"]
    openZip := fun _ => .error .fileNotFound }

/-- A filesystem with one plugin root directory and one readable archive
`plug.zip` containing an `ytdlp_plugins/extractor` subtree. -/
def fsArch : FS :=
  { isDir := fun p => p = ["root", "ytdlp_plugins", "extractor"] ∨ p = ["root"]
    isFile := fun p => p = ["plug.zip"]
    openZip := fun p =>
      if p = ["plug.zip"] then
        .ok [["ytdlp_plugins", "extractor", "mod.py"]]
      else .error .fileNotFound }

/-- A trivial filesystem with nothing on it. -/
def fsEmpty : FS :=
  { isDir := fun _ => false
    isFile := fun _ => false
    openZip := fun _ => .error .fileNotFound }

/-- Host with one builtin class (id `0`) registered under `"FooIE"`. -/
def hostEx : ExtractorHost Nat := ⟨[("FooIE", 0)], [0]⟩

/-- Plugin map binding `"FooIE"` to the plugin class (id `1`). -/
def pluginsEx : Dict Nat := [("FooIE", 1)]

/-- A capability whose `IE_NAME` accessor raises. -/
def clsRaises : PlugClass :=
  ⟨true, .error "IE_NAME access failed", "plug.py"⟩

/-- A capability without an `IE_NAME` attribute. -/
def clsNoName : PlugClass := ⟨false, .ok "", "other.py"⟩

end YP

namespace YP

/-! ### Dictionary lemmas -/

theorem contains_iff {α : Type} [BEq α] [LawfulBEq α] (l : List α) (a : α) :
    l.contains a = true ↔ a ∈ l :=
  List.elem_iff

theorem dictGet_cons {V : Type} (p : String × V) (d : Dict V) (k : String) :
    dictGet (p :: d) k = if p.1 = k then some p.2 else dictGet d k := by
  by_cases h : p.1 = k <;> simp [dictGet, List.find?_cons, h]

theorem dictGet_some_mem {V : Type} {d : Dict V} {k : String} {v : V}
    (h : dictGet d k = some v) : (k, v) ∈ d := by
  induction d with
  | nil => simp [dictGet] at h
  | cons p rest ih =>
    rw [dictGet_cons] at h
    by_cases hp : p.1 = k
    · rw [if_pos hp] at h
      have hpv : p = (k, v) := by cases p; simp_all
      subst hpv
      exact List.mem_cons_self _ _
    · rw [if_neg hp] at h
      exact List.mem_cons_of_mem _ (ih h)

theorem dictGet_eq_none {V : Type} {d : Dict V} {k : String}
    (h : ∀ p ∈ d, p.1 ≠ k) : dictGet d k = none := by
  induction d with
  | nil => rfl
  | cons p rest ih =>
    rw [dictGet_cons, if_neg (h p (List.mem_cons_self p rest))]
    exact ih (fun q hq => h q (List.mem_cons_of_mem p hq))

theorem mem_dictKeys_of_get_some {V : Type} {d : Dict V} {k : String} {v : V}
    (h : dictGet d k = some v) : k ∈ dictKeys d :=
  List.mem_map.mpr ⟨(k, v), dictGet_some_mem h, rfl⟩

theorem dictGet_isSome_eq_any {V : Type} (d : Dict V) (k : String) :
    (dictGet d k).isSome = d.any (fun p => p.1 = k) := by
  induction d with
  | nil => rfl
  | cons p rest ih =>
    rw [dictGet_cons]
    by_cases hp : p.1 = k <;> simp [hp, ih]

theorem dictGet_append {V : Type} (d e : Dict V) (k : String) :
    dictGet (d ++ e) k = (dictGet d k).or (dictGet e k) := by
  induction d with
  | nil => simp [dictGet]
  | cons p rest ih =>
    rw [List.cons_append, dictGet_cons, dictGet_cons]
    by_cases hp : p.1 = k
    · simp [hp, Option.or]
    · simp [hp, ih]

theorem dictGet_map_replace_self {V : Type} (d : Dict V) (k2 : String) (v : V) :
    dictGet (d.map (fun p => if p.1 = k2 then (k2, v) else p)) k2 =
      (dictGet d k2).map (fun _ => v) := by
  induction d with
  | nil => rfl
  | cons p rest ih =>
    by_cases hp : p.1 = k2 <;>
      simp_all [List.map_cons, dictGet_cons]

theorem dictGet_map_replace_other {V : Type} (d : Dict V) (k2 k : String)
    (v : V) (hk : k2 ≠ k) :
    dictGet (d.map (fun p => if p.1 = k2 then (k2, v) else p)) k =
      dictGet d k := by
  induction d with
  | nil => rfl
  | cons p rest ih =>
    by_cases hpk2 : p.1 = k2 <;> by_cases hp : p.1 = k <;>
      simp_all [List.map_cons, dictGet_cons]

theorem dictGet_dictUpdate {V : Type} (d : Dict V) (k2 k : String) (v : V) :
    dictGet (dictUpdate d k2 v) k =
      if k2 = k then some v else dictGet d k := by
  unfold dictUpdate
  by_cases hany : d.any (fun p => p.1 = k2) = true
  · rw [if_pos hany]
    by_cases hk : k2 = k
    · subst hk
      rw [if_pos rfl, dictGet_map_replace_self]
      have hs : (dictGet d k2).isSome = true := by
        rw [dictGet_isSome_eq_any]; exact hany
      cases ho : dictGet d k2 with
      | none => rw [ho] at hs; simp at hs
      | some w => rfl
    · rw [if_neg hk, dictGet_map_replace_other d k2 k v hk]
  · rw [if_neg hany, dictGet_append]
    have hn : dictGet d k2 = none := by
      have hiso := dictGet_isSome_eq_any d k2
      rw [Bool.eq_false_iff.mpr hany] at hiso
      exact Option.not_isSome_iff_eq_none.mp (by rw [hiso]; simp)
    by_cases hk : k2 = k
    · subst hk
      rw [hn, if_pos rfl, dictGet_cons]
      simp
    · rw [if_neg hk, dictGet_cons]
      have h0 : dictGet ([] : Dict V) k = none := rfl
      simp only [if_neg hk, h0, Option.or_none]

theorem dictGet_updateMany_not_mem {V : Type} {e : Dict V} {k : String}
    (d : Dict V) (h : k ∉ dictKeys e) :
    dictGet (dictUpdateMany d e) k = dictGet d k := by
  induction e generalizing d with
  | nil => rfl
  | cons p rest ih =>
    have hp : ¬(p.1 = k) := fun hc => h (by simp [dictKeys, hc])
    have hr : k ∉ dictKeys rest := fun hc => h (by
      simp only [dictKeys, List.map_cons, List.mem_cons]
      right
      exact hc)
    show dictGet (dictUpdateMany (dictUpdate d p.1 p.2) rest) k = dictGet d k
    rw [ih _ hr, dictGet_dictUpdate, if_neg hp]

theorem dictGet_updateMany_nodup {V : Type} {e : Dict V} {k : String} {v : V}
    (d : Dict V) (hn : (dictKeys e).Nodup) (hv : dictGet e k = some v) :
    dictGet (dictUpdateMany d e) k = some v := by
  induction e generalizing d with
  | nil => simp [dictGet] at hv
  | cons p rest ih =>
    rw [dictGet_cons] at hv
    have hcons := List.nodup_cons.mp hn
    by_cases hp : p.1 = k
    · rw [if_pos hp] at hv
      have hk : k ∉ dictKeys rest := by
        intro hc
        apply hcons.1
        show p.1 ∈ dictKeys rest
        rw [hp]
        exact hc
      show dictGet (dictUpdateMany (dictUpdate d p.1 p.2) rest) k = some v
      rw [dictGet_updateMany_not_mem _ hk, dictGet_dictUpdate, if_pos hp, hv]
    · rw [if_neg hp] at hv
      exact ih _ hcons.2 hv

theorem dictGet_updateMany_some_mem {V : Type} {e : Dict V} {k : String}
    {v : V} (d : Dict V)
    (h : dictGet (dictUpdateMany d e) k = some v) :
    (k, v) ∈ e ∨ dictGet d k = some v := by
  induction e generalizing d with
  | nil => exact Or.inr h
  | cons p rest ih =>
    have h2 : dictGet (dictUpdateMany (dictUpdate d p.1 p.2) rest) k = some v := h
    rcases ih _ h2 with hm | hg
    · exact Or.inl (List.mem_cons_of_mem p hm)
    · rw [dictGet_dictUpdate] at hg
      by_cases hp : p.1 = k
      · rw [if_pos hp] at hg
        have hpv : p = (k, v) := by cases p; simp_all
        subst hpv
        exact Or.inl (List.mem_cons_self _ _)
      · rw [if_neg hp] at hg
        exact Or.inr hg

theorem dictGet_dictOfPairs_mem {V : Type} {l : List (String × V)} {k : String}
    {v : V} (h : dictGet (dictOfPairs l) k = some v) : (k, v) ∈ l := by
  rcases dictGet_updateMany_some_mem [] h with hm | hg
  · exact hm
  · simp [dictGet] at hg

theorem dictKeys_dictUpdate_mem {V : Type} (d : Dict V) (k2 : String) (v : V)
    {k : String} (h : k ∈ dictKeys d ∨ k = k2) :
    k ∈ dictKeys (dictUpdate d k2 v) := by
  unfold dictUpdate
  by_cases hany : d.any (fun p => p.1 = k2) = true
  · rw [if_pos hany]
    have hkeys : dictKeys (d.map (fun p => if p.1 = k2 then (k2, v) else p)) =
        dictKeys d := by
      unfold dictKeys
      rw [List.map_map]
      apply List.map_congr_left
      intro p _
      by_cases hp : p.1 = k2 <;> simp [hp]
    rw [hkeys]
    rcases h with hm | he
    · exact hm
    · subst he
      rcases List.any_eq_true.mp hany with ⟨p, hp, hpk⟩
      exact List.mem_map.mpr ⟨p, hp, by simpa using hpk⟩
  · rw [if_neg hany]
    unfold dictKeys
    rw [List.map_append]
    rcases h with hm | he
    · exact List.mem_append_left _ hm
    · subst he
      exact List.mem_append_right _ (by simp)

theorem dictKeys_updateMany_mem {V : Type} (d e : Dict V) {k : String}
    (h : k ∈ dictKeys d ∨ k ∈ dictKeys e) :
    k ∈ dictKeys (dictUpdateMany d e) := by
  induction e generalizing d with
  | nil =>
    rcases h with hm | hm
    · exact hm
    · simp [dictKeys] at hm
  | cons p rest ih =>
    show k ∈ dictKeys (dictUpdateMany (dictUpdate d p.1 p.2) rest)
    rcases h with hm | hm
    · exact ih _ (Or.inl (dictKeys_dictUpdate_mem d p.1 p.2 (Or.inl hm)))
    · rcases List.mem_map.mp hm with ⟨q, hq, hqk⟩
      rcases List.mem_cons.mp hq with hq1 | hq2
      · subst hq1
        exact ih _ (Or.inl (dictKeys_dictUpdate_mem d q.1 q.2 (Or.inr hqk.symm)))
      · exact ih _ (Or.inr (List.mem_map.mpr ⟨q, hq2, hqk⟩))

theorem dictKeys_dictUpdate_nodup {V : Type} {d : Dict V} (k2 : String) (v : V)
    (h : (dictKeys d).Nodup) : (dictKeys (dictUpdate d k2 v)).Nodup := by
  unfold dictUpdate
  by_cases hany : d.any (fun p => p.1 = k2) = true
  · rw [if_pos hany]
    have hkeys : dictKeys (d.map (fun p => if p.1 = k2 then (k2, v) else p)) =
        dictKeys d := by
      unfold dictKeys
      rw [List.map_map]
      apply List.map_congr_left
      intro p _
      by_cases hp : p.1 = k2 <;> simp [hp]
    rw [hkeys]
    exact h
  · rw [if_neg hany]
    unfold dictKeys
    rw [List.map_append, List.nodup_append]
    have hany2 : d.any (fun p => p.1 = k2) = false := Bool.eq_false_iff.mpr hany
    refine ⟨h, by simp, ?_⟩
    intro a ha hb
    simp at hb
    subst hb
    rcases List.mem_map.mp ha with ⟨p, hp, hpk⟩
    have := List.any_eq_false.mp hany2 p hp
    simp at this
    exact this hpk

theorem dictKeys_updateMany_nodup {V : Type} (d e : Dict V)
    (h : (dictKeys d).Nodup) : (dictKeys (dictUpdateMany d e)).Nodup := by
  induction e generalizing d with
  | nil => exact h
  | cons p rest ih => exact ih _ (dictKeys_dictUpdate_nodup p.1 p.2 h)

theorem dictKeys_dictOfPairs_nodup {V : Type} (l : List (String × V)) :
    (dictKeys (dictOfPairs l)).Nodup :=
  dictKeys_updateMany_nodup [] l List.nodup_nil

end YP
namespace YP

/-! ### Loader lemmas -/

theorem mem_insertByAttr {a m : Member} {l : List Member} :
    a ∈ insertByAttr m l ↔ a = m ∨ a ∈ l := by
  induction l with
  | nil => simp [insertByAttr]
  | cons x xs ih =>
    unfold insertByAttr
    by_cases h : m.attr ≤ x.attr
    · simp [h]
    · simp only [if_neg h, List.mem_cons, ih]
      tauto

theorem mem_sortByAttr {a : Member} {l : List Member} :
    a ∈ l.foldr insertByAttr [] ↔ a ∈ l := by
  induction l with
  | nil => simp
  | cons x xs ih => simp [List.foldr_cons, mem_insertByAttr, ih]

theorem foldl_load_step_fst (suffix : String) (mods : List ModCand)
    (a : Dict Member) (w : List String) :
    (mods.foldl (load_step suffix) (a, w)).1 =
      mods.foldl (load_classes_step suffix) a := by
  induction mods generalizing a w with
  | nil => rfl
  | cons m rest ih =>
    rw [List.foldl_cons, List.foldl_cons]
    cases hm : m.loadResult with
    | error e =>
      have h1 : load_step suffix (a, w) m = (a, w ++ [m.name]) := by
        simp [load_step, hm]
      have h2 : load_classes_step suffix a m = a := by
        simp [load_classes_step, hm]
      rw [h1, ih, h2]
    | ok members =>
      have h1 : load_step suffix (a, w) m =
          (load_classes_step suffix a m, w) := by
        simp [load_step, load_classes_step, hm]
      rw [h1, ih]

theorem foldl_load_step_snd (suffix : String) (mods : List ModCand)
    (a : Dict Member) (w : List String) :
    (mods.foldl (load_step suffix) (a, w)).2 =
      w ++ (mods.filter failed).map (fun m => m.name) := by
  induction mods generalizing a w with
  | nil => simp
  | cons m rest ih =>
    rw [List.foldl_cons]
    cases hm : m.loadResult with
    | error e =>
      have h1 : load_step suffix (a, w) m = (a, w ++ [m.name]) := by
        simp [load_step, hm]
      have h2 : failed m = true := by simp [failed, hm]
      rw [h1, ih, List.filter_cons_of_pos h2, List.map_cons,
        List.append_assoc]
      rfl
    | ok members =>
      have h1 : load_step suffix (a, w) m =
          (load_classes_step suffix a m, w) := by
        simp [load_step, load_classes_step, hm]
      have h2 : failed m = false := by simp [failed, hm]
      rw [h1, ih, List.filter_cons_of_neg (by simp [h2])]

theorem load_classes_step_ok_eq (suffix : String) (acc : Dict Member)
    (m : ModCand) (l : List Member) (hm : m.loadResult = .ok l) :
    load_classes_step suffix acc m =
      dictUpdateMany acc
        ((module_classes suffix m.name l).filter
          (fun p =>
            !((((dictKeys acc).filter
              (fun k => (dictKeys (module_classes suffix m.name l)).contains k))).contains
              p.1))) := by
  simp [load_classes_step, hm]

end YP
namespace YP

/-! ### Claim C1 -/

/-- Claim C1, counterexample: two distinct successfully loaded modules
(`modA`, `modB`) each define a top-level capability class with the same
qualifying name `FooIE`, yet after the pass the name is NOT absent from the
returned mapping — the first module's class is still bound to it (and the
second's was dropped). -/
theorem load_plugins_collision_cex :
    modA ≠ modB ∧
    "FooIE" ∈ dictKeys (module_classes "IE" modA.name [memberFooA]) ∧
    "FooIE" ∈ dictKeys (module_classes "IE" modB.name [memberFooB]) ∧
    dictGet (load_plugins "IE" [modA, modB]).1 "FooIE" = some memberFooA := by
  decide

/-- Claim C1 (amended): on a name collision between two successfully loaded
plugin modules, the loading pass keeps the first module's binding for that
name and drops the later module's symbol (first-writer-wins, no silent
overwrite), and the collision raises no exception (the pass returns the
merged mapping normally). -/
theorem load_plugins_collision_first_wins
    (suffix : String) (m1 m2 : ModCand) (l1 l2 : List Member)
    (k : String) (v1 : Member)
    (h1 : m1.loadResult = .ok l1) (h2 : m2.loadResult = .ok l2)
    (hk1 : dictGet (module_classes suffix m1.name l1) k = some v1)
    (hk2 : k ∈ dictKeys (module_classes suffix m2.name l2)) :
    dictGet (load_plugins suffix [m1, m2]).1 k = some v1 := by
  have hnd1 : (dictKeys (module_classes suffix m1.name l1)).Nodup :=
    dictKeys_dictOfPairs_nodup _
  have hload : (load_plugins suffix [m1, m2]).1 =
      load_classes_step suffix (load_classes_step suffix [] m1) m2 := by
    rw [load_plugins, foldl_load_step_fst suffix [m1, m2] [] []]
    rfl
  rw [hload]
  have e1 : load_classes_step suffix [] m1 =
      dictUpdateMany [] (module_classes suffix m1.name l1) := by
    rw [load_classes_step_ok_eq suffix [] m1 l1 h1]
    congr 1
    apply List.filter_eq_self.mpr
    intro p _
    rfl
  have g1 : dictGet (load_classes_step suffix [] m1) k = some v1 := by
    rw [e1]
    exact dictGet_updateMany_nodup [] hnd1 hk1
  rw [load_classes_step_ok_eq suffix _ m2 l2 h2]
  rw [dictGet_updateMany_not_mem _ ?hnot]
  case hnot =>
    intro hc
    rcases List.mem_map.mp hc with ⟨p, hp, hpk⟩
    rcases List.mem_filter.mp hp with ⟨hpm, hpred⟩
    have hkacc : k ∈ dictKeys (load_classes_step suffix [] m1) :=
      mem_dictKeys_of_get_some g1
    have hcoll : p.1 ∈ (dictKeys (load_classes_step suffix [] m1)).filter
        (fun k2 => (dictKeys (module_classes suffix m2.name l2)).contains k2) := by
      apply List.mem_filter.mpr
      refine ⟨?_, ?_⟩
      · rw [hpk]
        exact hkacc
      · rw [hpk]
        exact (contains_iff _ _).mpr hk2
    rw [(contains_iff _ _).mpr hcoll] at hpred
    simp at hpred
  exact g1

end YP
namespace YP

/-- Witness for `load_plugins_collision_first_wins` at the concrete
colliding modules `modA` and `modB`. -/
theorem load_plugins_collision_first_wins_witness :
    dictGet (load_plugins "IE" [modA, modB]).1 "FooIE" = some memberFooA :=
  load_plugins_collision_first_wins "IE" modA modB [memberFooA] [memberFooB]
    "FooIE" memberFooA rfl rfl (by decide) (by decide)

/-! ### Claim C6 -/

/-- Claim C6: a candidate submodule whose import raises is skipped after a
warning naming it, the pass still returns exactly the classes merged from
all sibling modules, and no exception escapes the loader (the fold returns
normally). -/
theorem load_plugins_isolates_failures
    (suffix : String) (xs ys : List ModCand) (bad : ModCand) (e : String)
    (hb : bad.loadResult = .error e) :
    (load_plugins suffix (xs ++ bad :: ys)).1 =
      (load_plugins suffix (xs ++ ys)).1 ∧
    bad.name ∈ (load_plugins suffix (xs ++ bad :: ys)).2 := by
  constructor
  · rw [load_plugins, load_plugins, foldl_load_step_fst, foldl_load_step_fst]
    rw [List.foldl_append, List.foldl_append, List.foldl_cons]
    have hskip :
        load_classes_step suffix (xs.foldl (load_classes_step suffix) []) bad =
          xs.foldl (load_classes_step suffix) [] := by
      simp [load_classes_step, hb]
    rw [hskip]
  · rw [load_plugins, foldl_load_step_snd]
    simp only [List.nil_append]
    apply List.mem_map.mpr
    refine ⟨bad, ?_, rfl⟩
    apply List.mem_filter.mpr
    exact ⟨by simp, by simp [failed, hb]⟩

/-- Witness for `load_plugins_isolates_failures` with a concrete broken
module between two good ones. -/
theorem load_plugins_isolates_failures_witness :
    (load_plugins "IE" ([modA] ++ modBad :: [modB])).1 =
      (load_plugins "IE" ([modA] ++ [modB])).1 ∧
    modBad.name ∈ (load_plugins "IE" ([modA] ++ modBad :: [modB])).2 :=
  load_plugins_isolates_failures "IE" [modA] [modB] modBad "boom" rfl

/-! ### Claim C7 -/

/-- Claim C7, counterexample: module `ytdlp_plugins.extractor.m` loads a
class whose declared owning module is `ytdlp_plugins.extractor.mx` — not
equal to the module just loaded — yet the symbol IS harvested, because the
source predicate tests `obj.__module__.startswith(module_name)`, not
equality. -/
theorem load_plugins_owner_prefix_cex :
    memberWeird.objModule ≠ modM.name ∧
    dictGet (load_plugins "IE" [modM]).1 "WeirdIE" = some memberWeird := by
  decide

/-- Claim C7 (amended): from a successfully loaded module, the harvest
contains exactly the top-level class symbols whose name ends with the
required suffix and whose declared owning module name STARTS WITH the
loaded module's name — a prefix test, which still excludes symbols imported
from sibling/unrelated modules but also admits owning modules whose dotted
name merely extends the loaded one. -/
theorem module_classes_characterization
    (suffix module_name : String) (members : List Member) (k : String) :
    (∀ v, dictGet (module_classes suffix module_name members) k = some v →
      v ∈ members ∧ v.attr = k ∧ v.objIsClass = true ∧
      strEndsWith v.objName suffix = true ∧
      strStartsWith v.objModule module_name = true) ∧
    (∀ m ∈ members, m.attr = k →
      m.objIsClass = true → strEndsWith m.objName suffix = true →
      strStartsWith m.objModule module_name = true →
      k ∈ dictKeys (module_classes suffix module_name members)) := by
  constructor
  · intro v hv
    have hmem := dictGet_dictOfPairs_mem hv
    rcases List.mem_map.mp hmem with ⟨m, hm, hmk⟩
    have hav : m.attr = k ∧ m = v := by
      constructor
      · exact congrArg Prod.fst hmk
      · exact congrArg Prod.snd hmk
    rcases hav with ⟨hattr, hveq⟩
    subst hveq
    rcases List.mem_filter.mp hm with ⟨hsorted, hpred⟩
    have hmm : m ∈ members := mem_sortByAttr.mp hsorted
    have hps : m.objIsClass = true ∧ strEndsWith m.objName suffix = true ∧
        strStartsWith m.objModule module_name = true := by
      simpa [check_predicate, Bool.and_eq_true, and_assoc] using hpred
    exact ⟨hmm, hattr, hps.1, hps.2.1, hps.2.2⟩
  · intro m hm hattr hic hes hss
    apply dictKeys_updateMany_mem
    right
    apply List.mem_map.mpr
    refine ⟨(m.attr, m), ?_, hattr⟩
    apply List.mem_map.mpr
    refine ⟨m, ?_, rfl⟩
    apply List.mem_filter.mpr
    refine ⟨mem_sortByAttr.mpr hm, ?_⟩
    simp [check_predicate, hic, hes, hss]

/-- Witness for `module_classes_characterization`: the harvested
`memberWeird` is traced back to its defining module with the prefix
property. -/
theorem module_classes_characterization_witness :
    memberWeird ∈ [memberWeird] ∧ memberWeird.attr = "WeirdIE" ∧
    memberWeird.objIsClass = true ∧
    strEndsWith memberWeird.objName "IE" = true ∧
    strStartsWith memberWeird.objModule "ytdlp_plugins.extractor.m" = true :=
  (module_classes_characterization "IE" "ytdlp_plugins.extractor.m"
    [memberWeird] "WeirdIE").1 memberWeird (by decide)

end YP
namespace YP

/-! ### Locator lemmas -/

theorem mem_of_mem_dedupKeepFirst {x : PathC} :
    ∀ {seen l : List PathC}, x ∈ dedupKeepFirst seen l → x ∈ l := by
  intro seen l
  induction l generalizing seen with
  | nil => intro h; exact absurd h (List.not_mem_nil x)
  | cons p rest ih =>
    intro h
    unfold dedupKeepFirst at h
    by_cases hs : seen.contains p = true
    · rw [if_pos hs] at h
      exact List.mem_cons_of_mem p (ih h)
    · rw [if_neg hs] at h
      rcases List.mem_cons.mp h with he | hm
      · exact he ▸ List.mem_cons_self p rest
      · exact List.mem_cons_of_mem p (ih hm)

theorem not_mem_seen_of_mem_dedupKeepFirst {x : PathC} :
    ∀ {seen l : List PathC}, x ∈ dedupKeepFirst seen l → x ∉ seen := by
  intro seen l
  induction l generalizing seen with
  | nil => intro h; exact absurd h (List.not_mem_nil x)
  | cons p rest ih =>
    intro h
    unfold dedupKeepFirst at h
    by_cases hs : seen.contains p = true
    · rw [if_pos hs] at h
      exact ih h
    · rw [if_neg hs] at h
      rcases List.mem_cons.mp h with he | hm
      · subst he
        intro hc
        exact hs ((contains_iff _ _).mpr hc)
      · intro hc
        exact ih hm (List.mem_cons_of_mem p hc)

theorem dedupKeepFirst_nodup : ∀ (seen l : List PathC),
    (dedupKeepFirst seen l).Nodup := by
  intro seen l
  induction l generalizing seen with
  | nil => exact List.nodup_nil
  | cons p rest ih =>
    unfold dedupKeepFirst
    by_cases hs : seen.contains p = true
    · rw [if_pos hs]
      exact ih seen
    · rw [if_neg hs]
      apply List.nodup_cons.mpr
      refine ⟨?_, ih (p :: seen)⟩
      intro hc
      exact not_mem_seen_of_mem_dedupKeepFirst hc (List.mem_cons_self p seen)


theorem search_loop_spec (fs : FS) (parts : PathC) :
    ∀ (ps : List PathC) (c : ZipCache), cacheGood fs c →
    (∀ p ∈ ps, fs.isDir (p ++ parts) = false → fs.isFile p = true →
      archiveSuffixes.contains (pathSuffix p) = true →
      fs.openZip p ≠ .error .badZipFile) →
    ∃ c2, search_loop fs parts c ps =
        .ok ((ps.filter (contributes fs parts)).map (fun p => p ++ parts), c2) ∧
      cacheGood fs c2 := by
  intro ps
  induction ps with
  | nil => exact fun c hc _ => ⟨c, rfl, hc⟩
  | cons p rest ih =>
    intro c hc hb
    have hbrest : ∀ q ∈ rest, fs.isDir (q ++ parts) = false →
        fs.isFile q = true →
        archiveSuffixes.contains (pathSuffix q) = true →
        fs.openZip q ≠ .error .badZipFile :=
      fun q hq => hb q (List.mem_cons_of_mem p hq)
    by_cases hd : fs.isDir (p ++ parts) = true
    · rcases ih c hc hbrest with ⟨c2, hrec, hc2⟩
      refine ⟨c2, ?_, hc2⟩
      have hcon : contributes fs parts p = true := by
        unfold contributes
        rw [hd, Bool.true_or]
      rw [List.filter_cons_of_pos hcon, List.map_cons]
      simp [search_loop, hd, hrec]
    · have hdf : fs.isDir (p ++ parts) = false := Bool.eq_false_iff.mpr hd
      cases hf : fs.isFile p with
      | false =>
        rcases ih c hc hbrest with ⟨c2, hrec, hc2⟩
        refine ⟨c2, ?_, hc2⟩
        have hcon : contributes fs parts p = false := by
          unfold contributes
          rw [hdf, hf, Bool.false_and, Bool.false_and, Bool.false_or]
        rw [List.filter_cons_of_neg (by simp [hcon])]
        simp [search_loop, hdf, hf, hrec]
      | true =>
        cases hs : archiveSuffixes.contains (pathSuffix p) with
        | false =>
          rcases ih c hc hbrest with ⟨c2, hrec, hc2⟩
          refine ⟨c2, ?_, hc2⟩
          have hsm : ¬(pathSuffix p ∈ archiveSuffixes) := fun hm => by
            rw [(contains_iff _ _).mpr hm] at hs
            cases hs
          have hcon : contributes fs parts p = false := by
            unfold contributes
            rw [hdf, hs, Bool.and_false, Bool.false_and, Bool.false_or]
          rw [List.filter_cons_of_neg (by simp [hcon])]
          simp [search_loop, hdf, hf, hsm, hrec]
        | true =>
          have hsm : pathSuffix p ∈ archiveSuffixes := (contains_iff _ _).mp hs
          cases hcl : cacheLookup c p with
          | some names =>
            have hz : fs.openZip p = .ok names := by
              apply hc
              unfold cacheLookup at hcl
              cases hfind : c.find? (fun q => q.1 = p) with
              | none => rw [hfind] at hcl; simp at hcl
              | some q =>
                rw [hfind] at hcl
                simp at hcl
                have hq1 : q.1 = p := by simpa using List.find?_some hfind
                have hqm := List.mem_of_find?_eq_some hfind
                have hqe : q = (p, names) := by
                  cases q
                  simp_all
                rw [hqe] at hqm
                exact hqm
            have hzhd : zip_has_dir fs c p parts =
                .ok (names.any (fun f => inParentsB parts f), c) := by
              simp [zip_has_dir, hcl]
            have hcon : contributes fs parts p =
                names.any (fun f => inParentsB parts f) := by
              unfold contributes
              rw [hdf, hf, hs, hz, Bool.true_and, Bool.true_and, Bool.false_or]
            rcases ih c hc hbrest with ⟨c2, hrec, hc2⟩
            refine ⟨c2, ?_, hc2⟩
            cases ha : names.any (fun f => inParentsB parts f) with
            | true =>
              rw [List.filter_cons_of_pos (by rw [hcon, ha]), List.map_cons]
              simp [search_loop, hdf, hf, hsm, hzhd, ha, hrec]
            | false =>
              rw [List.filter_cons_of_neg (by rw [hcon, ha]; simp)]
              simp [search_loop, hdf, hf, hsm, hzhd, ha, hrec]
          | none =>
            cases hz : fs.openZip p with
            | error e =>
              cases e with
              | badZipFile =>
                exact absurd hz (hb p (List.mem_cons_self p rest) hdf hf hs)
              | fileNotFound =>
                rcases ih c hc hbrest with ⟨c2, hrec, hc2⟩
                refine ⟨c2, ?_, hc2⟩
                have hcon : contributes fs parts p = false := by
                  unfold contributes
                  rw [hdf, hz, Bool.and_false, Bool.false_or]
                have hzhd : zip_has_dir fs c p parts = .error .fileNotFound := by
                  simp [zip_has_dir, hcl, hz]
                rw [List.filter_cons_of_neg (by simp [hcon])]
                simp [search_loop, hdf, hf, hsm, hzhd, hrec]
            | ok names =>
              have hcgood : cacheGood fs ((p, names) :: c) := by
                intro a ns hmem
                rcases List.mem_cons.mp hmem with he | hm
                · have h1 : a = p := congrArg Prod.fst he
                  have h2 : ns = names := congrArg Prod.snd he
                  rw [h1, h2]
                  exact hz
                · exact hc a ns hm
              rcases ih ((p, names) :: c) hcgood hbrest with ⟨c2, hrec, hc2⟩
              refine ⟨c2, ?_, hc2⟩
              have hcon : contributes fs parts p =
                  names.any (fun f => inParentsB parts f) := by
                unfold contributes
                rw [hdf, hf, hs, hz, Bool.true_and, Bool.true_and, Bool.false_or]
              have hzhd : zip_has_dir fs c p parts =
                  .ok (names.any (fun f => inParentsB parts f),
                    (p, names) :: c) := by
                simp [zip_has_dir, hcl, hz]
              cases ha : names.any (fun f => inParentsB parts f) with
              | true =>
                rw [List.filter_cons_of_pos (by rw [hcon, ha]), List.map_cons]
                simp [search_loop, hdf, hf, hsm, hzhd, ha, hrec]
              | false =>
                rw [List.filter_cons_of_neg (by rw [hcon, ha]; simp)]
                simp [search_loop, hdf, hf, hsm, hzhd, ha, hrec]

end YP
namespace YP

/-! ### Claim C5 -/

/-- Claim C5: `search_locations` walks the search path in order with
duplicate entries collapsed first-occurrence-wins; when every consulted
archive is readable, the result is exactly the contributing entries (the
directories containing the namespace chain and the archives containing it),
in search-path order, each joined with the namespace chain, and the list is
duplicate-free. -/
theorem search_locations_order_dedup
    (fs : FS) (sysPath : List PathC) (fullname : String)
    (hb : ∀ p ∈ sysPath, fs.isDir (p ++ splitDots fullname) = false →
      fs.isFile p = true →
      archiveSuffixes.contains (pathSuffix p) = true →
      fs.openZip p ≠ .error .badZipFile) :
    ∃ c2 locs, search_locations fs sysPath [] fullname = .ok (locs, c2) ∧
      locs = ((dedupKeepFirst [] sysPath).filter
          (contributes fs (splitDots fullname))).map
        (fun p => p ++ splitDots fullname) ∧
      locs.Nodup := by
  have hb2 : ∀ p ∈ dedupKeepFirst [] sysPath,
      fs.isDir (p ++ splitDots fullname) = false → fs.isFile p = true →
      archiveSuffixes.contains (pathSuffix p) = true →
      fs.openZip p ≠ .error .badZipFile :=
    fun p hp => hb p (mem_of_mem_dedupKeepFirst hp)
  rcases search_loop_spec fs (splitDots fullname) (dedupKeepFirst [] sysPath)
      [] (fun a ns h => absurd h (List.not_mem_nil _)) hb2 with ⟨c2, hloop, _⟩
  refine ⟨c2, _, hloop, rfl, ?_⟩
  apply List.Nodup.map
  · intro a b hab
    exact List.append_cancel_right hab
  · exact List.Nodup.filter _ (dedupKeepFirst_nodup [] sysPath)

/-- Witness for `search_locations_order_dedup` on a search path with one
directory root, one readable archive and a duplicated entry. -/
theorem search_locations_order_dedup_witness :
    (∀ p ∈ [["root"], ["plug.zip"], ["root"]],
      fsArch.isDir (p ++ splitDots "ytdlp_plugins.extractor") = false →
      fsArch.isFile p = true →
      archiveSuffixes.contains (pathSuffix p) = true →
      fsArch.openZip p ≠ .error .badZipFile) ∧
    (∃ c2 locs,
      search_locations fsArch [["root"], ["plug.zip"], ["root"]] []
          "ytdlp_plugins.extractor" = .ok (locs, c2) ∧
      locs = ((dedupKeepFirst [] [["root"], ["plug.zip"], ["root"]]).filter
          (contributes fsArch (splitDots "ytdlp_plugins.extractor"))).map
        (fun p => p ++ splitDots "ytdlp_plugins.extractor") ∧
      locs.Nodup) :=
  ⟨by decide,
    search_locations_order_dedup fsArch [["root"], ["plug.zip"], ["root"]]
      "ytdlp_plugins.extractor" (by decide)⟩

/-! ### Claim C3 -/

/-- Claim C3, counterexample: `stale.zip` exists as a file on the search
path but is unreadable (opening it raises `BadZipFile`); the scan does not
treat it as contributing nothing — the error propagates out of
`search_locations`, because only `FileNotFoundError` is suppressed. -/
theorem search_locations_badzip_cex :
    fsCorrupt.isFile ["stale.zip"] = true ∧
    search_locations fsCorrupt [["stale.zip"]] [] "ytdlp_plugins.extractor" =
      .error .badZipFile := by
  decide

/-- Claim C3 (amended): a missing archive (opening raises
`FileNotFoundError`) contributes no locations and the scan returns
normally; but only that error is suppressed — an unreadable/corrupt archive
(`BadZipFile`) propagates, so the no-error guarantee holds only when no
consulted archive is corrupt. -/
theorem search_locations_missing_archive_ok
    (fs : FS) (sysPath : List PathC) (fullname : String)
    (hb : ∀ p ∈ sysPath, fs.isDir (p ++ splitDots fullname) = false →
      fs.isFile p = true →
      archiveSuffixes.contains (pathSuffix p) = true →
      fs.openZip p ≠ .error .badZipFile) :
    ∃ c2 locs, search_locations fs sysPath [] fullname = .ok (locs, c2) ∧
      ∀ p ∈ sysPath, fs.openZip p = .error .fileNotFound →
        fs.isDir (p ++ splitDots fullname) = false →
        (p ++ splitDots fullname) ∉ locs := by
  have hb2 : ∀ p ∈ dedupKeepFirst [] sysPath,
      fs.isDir (p ++ splitDots fullname) = false → fs.isFile p = true →
      archiveSuffixes.contains (pathSuffix p) = true →
      fs.openZip p ≠ .error .badZipFile :=
    fun p hp => hb p (mem_of_mem_dedupKeepFirst hp)
  rcases search_loop_spec fs (splitDots fullname) (dedupKeepFirst [] sysPath)
      [] (fun a ns h => absurd h (List.not_mem_nil _)) hb2 with ⟨c2, hloop, _⟩
  refine ⟨c2, _, hloop, ?_⟩
  intro p _ hz hdp hmem
  rcases List.mem_map.mp hmem with ⟨q, hq, hqe⟩
  rcases List.mem_filter.mp hq with ⟨_, hqc⟩
  have hqp : q = p := List.append_cancel_right hqe
  rw [hqp] at hqc
  simp [contributes, hdp, hz] at hqc

/-- Witness for `search_locations_missing_archive_ok` on a search path with
a root directory, a missing archive and a duplicated entry. -/
theorem search_locations_missing_archive_ok_witness :
    (∀ p ∈ [["root"], ["gone.zip"], ["root"]],
      fsMixed.isDir (p ++ splitDots "ytdlp_plugins.extractor") = false →
      fsMixed.isFile p = true →
      archiveSuffixes.contains (pathSuffix p) = true →
      fsMixed.openZip p ≠ .error .badZipFile) ∧
    (∃ c2 locs,
      search_locations fsMixed [["root"], ["gone.zip"], ["root"]] []
          "ytdlp_plugins.extractor" = .ok (locs, c2) ∧
      ∀ p ∈ [["root"], ["gone.zip"], ["root"]],
        fsMixed.openZip p = .error .fileNotFound →
        fsMixed.isDir (p ++ splitDots "ytdlp_plugins.extractor") = false →
        (p ++ splitDots "ytdlp_plugins.extractor") ∉ locs) :=
  ⟨by decide,
    search_locations_missing_archive_ok fsMixed
      [["root"], ["gone.zip"], ["root"]] "ytdlp_plugins.extractor"
      (by decide)⟩

/-! ### Claim C10 -/

/-- Claim C10: `find_spec` supplies no module spec for a name outside the
finder's recognized package set (resolution is left to the host's normal
chain, and the cache is untouched), nor for a recognized namespace whose
scan contributes zero locations. -/
theorem find_spec_none_cases
    (fs : FS) (f : PluginFinder) (sysPath : List PathC) (fullname : String)
    (c2 : ZipCache)
    (h : (fullname ∉ f.packages ∧ c2 = f.zip_content_cache) ∨
      (fullname ∈ f.packages ∧
        search_locations fs sysPath f.zip_content_cache fullname =
          .ok ([], c2))) :
    find_spec fs f sysPath fullname = .ok (none, c2) := by
  unfold find_spec
  rcases h with ⟨hnm, hc⟩ | ⟨hm, hsearch⟩
  · rw [if_neg hnm, hc]
  · rw [if_pos hm, hsearch]
    simp

/-- Witness for `find_spec_none_cases`: an unrelated module name, and a
recognized namespace with an empty search path. -/
theorem find_spec_none_cases_witness :
    ("nope" ∉ the_finder.packages ∧
      find_spec fsEmpty the_finder [] "nope" =
        .ok (none, the_finder.zip_content_cache)) ∧
    ("ytdlp_plugins.extractor" ∈ the_finder.packages ∧
      search_locations fsEmpty [] the_finder.zip_content_cache
          "ytdlp_plugins.extractor" = .ok ([], []) ∧
      find_spec fsEmpty the_finder [] "ytdlp_plugins.extractor" =
        .ok (none, [])) :=
  ⟨⟨by decide, find_spec_none_cases fsEmpty the_finder [] "nope" _
      (Or.inl ⟨by decide, rfl⟩)⟩,
    ⟨by decide, by decide, find_spec_none_cases fsEmpty the_finder []
      "ytdlp_plugins.extractor" [] (Or.inr ⟨by decide, by decide⟩)⟩⟩

end YP
namespace YP

/-! ### Claim C2 -/

/-- Claim C2: evaluation of `add_plugins` at the failing input.  The host
already binds `"FooIE"` to the builtin class (id `0`) and `_ALL_CLASSES`
contains it; after the call the name lookup returns the plugin class
(id `1`) as the claim says, but the builtin object is STILL in
`_ALL_CLASSES` — `add_plugins` only prepends (`_ALL_CLASSES[:0] = ...`) and
never removes the shadowed builtin, contradicting the repo's own
`test_overridden_classes`. -/
theorem add_plugins_keeps_builtin :
    dictGet hostEx.moduleDict "FooIE" = some 0 ∧
    (0 : Nat) ∈ hostEx.all_classes ∧
    dictGet (add_plugins hostEx pluginsEx).moduleDict "FooIE" = some 1 ∧
    (0 : Nat) ∈ (add_plugins hostEx pluginsEx).all_classes := by
  decide

/-! ### Claim C4 -/

/-- Claim C4, counterexample: a capability whose `IE_NAME` accessor raises
makes the Debug Reporter propagate that exception instead of falling back
to the registry key — `hasattr` only guards the attribute's existence, not
the evaluation of `cls().IE_NAME`. -/
theorem plugin_debug_raises_cex :
    clsRaises.hasIeName = true ∧
    plugin_debug_list (fun _ => none) [("BadIE", clsRaises)] =
      .error "IE_NAME access failed" := by
  decide

/-- Claim C4 (amended): the Debug Reporter falls back to the registry key
only for capabilities that LACK an `IE_NAME` attribute; for those, every
entry is rendered from the key and no exception arises.  (When the
accessor exists but raises, the exception propagates — see the
counterexample.) -/
theorem plugin_debug_fallback
    (relCwd : String → Option String) (found : List (String × PlugClass))
    (h : ∀ e ∈ found, e.2.hasIeName = false) :
    plugin_debug_list relCwd found =
      .ok (found.map (fun e =>
        (entry_path relCwd e.2.file, format_full_name e.1 e.1))) := by
  induction found with
  | nil => rfl
  | cons e rest ih =>
    have hecls : e.2.hasIeName = false := h e (List.mem_cons_self _ _)
    have hrest := ih (fun q hq => h q (List.mem_cons_of_mem e hq))
    obtain ⟨name, cls⟩ := e
    simp only at hecls
    simp [plugin_debug_list, hecls, hrest]

/-- Witness for `plugin_debug_fallback` at a one-entry registry whose class
has no `IE_NAME`. -/
theorem plugin_debug_fallback_witness :
    (∀ e ∈ [("FooIE", clsNoName)], e.2.hasIeName = false) ∧
    plugin_debug_list (fun _ => none) [("FooIE", clsNoName)] =
      .ok ([("FooIE", clsNoName)].map (fun e =>
        (entry_path (fun _ => none) e.2.file, format_full_name e.1 e.1))) :=
  ⟨by decide,
    plugin_debug_fallback (fun _ => none) [("FooIE", clsNoName)] (by decide)⟩

/-! ### Claim C8 -/

/-- Claim C8: installing the finder is idempotent.  Once the initialized
flag is set every further call leaves the state (in particular
`sys.meta_path`) unchanged, and starting from a fresh state any positive
number of calls leaves exactly one copy of the finder in the resolution
chain. -/
theorem init_system_idempotent (s : SysState) (n : Nat)
    (h1 : s.initDone = false) (h2 : the_finder ∉ s.metaPath) :
    (∀ t : SysState, t.initDone = true → init_system t = t) ∧
    ((init_system^[n + 1] s).metaPath).count the_finder = 1 := by
  have hfix : ∀ t : SysState, t.initDone = true → init_system t = t := by
    intro t ht
    unfold init_system
    rw [if_pos ht]
  refine ⟨hfix, ?_⟩
  have hone : init_system s = ⟨true, the_finder :: s.metaPath⟩ := by
    unfold init_system
    rw [if_neg (by simp [h1])]
  have hiter : ∀ m : Nat, init_system^[m] (init_system s) = init_system s := by
    intro m
    induction m with
    | zero => rfl
    | succ k ihk =>
      rw [Function.iterate_succ_apply, hfix (init_system s) (by rw [hone]),
        ihk]
  rw [Function.iterate_succ_apply, hiter n, hone]
  show List.count the_finder (the_finder :: s.metaPath) = 1
  rw [List.count_cons_self, List.count_eq_zero.mpr h2]

/-- Witness for `init_system_idempotent`: three calls on a fresh state
insert the finder exactly once. -/
theorem init_system_idempotent_witness :
    ((⟨false, []⟩ : SysState).initDone = false ∧
      the_finder ∉ (⟨false, []⟩ : SysState).metaPath) ∧
    ((∀ t : SysState, t.initDone = true → init_system t = t) ∧
      ((init_system^[2 + 1] (⟨false, []⟩ : SysState)).metaPath).count
        the_finder = 1) :=
  ⟨⟨rfl, by simp⟩, init_system_idempotent ⟨false, []⟩ 2 rfl (by simp)⟩

/-! ### Claim C9 -/

theorem partitionAux_mem :
    ∀ (rest : List String) (acc : String) (j : Nat), j ≤ rest.length →
      dotFold acc (rest.take j) ∈ partitionAux acc rest := by
  intro rest
  induction rest with
  | nil =>
    intro acc j hj
    have hj0 : j = 0 := Nat.le_zero.mp hj
    subst hj0
    exact List.mem_cons_self _ _
  | cons b rs ih =>
    intro acc j hj
    cases j with
    | zero => exact List.mem_cons_self _ _
    | succ k =>
      have hk : k ≤ rs.length := Nat.succ_le_succ_iff.mp hj
      rw [List.take_succ_cons]
      show dotFold (dotJoin acc b) (rs.take k) ∈
        acc :: partitionAux (dotJoin acc b) rs
      exact List.mem_cons_of_mem acc (ih (dotJoin acc b) k hk)

/-- Claim C9: for every dotted namespace name handed to the finder, every
dotted ancestor prefix of that name (each join of a leading run of its dot
segments) is in the finder's recognized package set, so each non-leaf
prefix passes the `find_spec` membership test even though only the full
leaf namespace was requested. -/
theorem packages_contain_ancestors
    (names : List String) (name : String) (j : Nat)
    (hn : name ∈ names) (hj : j < (splitDots name).length) :
    dotted_ancestor name j ∈ (PluginFinder.ofPackages names).packages := by
  have hpart : dotted_ancestor name j ∈ partition name := by
    unfold dotted_ancestor partition
    cases hsplit : splitDots name with
    | nil => rw [hsplit] at hj; simp at hj
    | cons x rest =>
      rw [hsplit] at hj
      exact partitionAux_mem rest x j (Nat.lt_succ_iff.mp (by
        simpa using hj))
  have main : ∀ (l : List String) (acc : List String) (x : String),
      (x ∈ acc ∨ ∃ n ∈ l, x ∈ partition n) →
      x ∈ l.foldl
        (fun a n => a ++ (partition n).filter (fun q => !(a.contains q)))
        acc := by
    intro l
    induction l with
    | nil =>
      intro acc x h
      rcases h with h | ⟨n, hn2, _⟩
      · exact h
      · exact absurd hn2 (List.not_mem_nil n)
    | cons n rest ih =>
      intro acc x h
      rw [List.foldl_cons]
      apply ih
      rcases h with hxa | ⟨m, hm, hx⟩
      · exact Or.inl (List.mem_append_left _ hxa)
      · rcases List.mem_cons.mp hm with he | hm2
        · subst he
          by_cases hxa : x ∈ acc
          · exact Or.inl (List.mem_append_left _ hxa)
          · refine Or.inl (List.mem_append_right _ ?_)
            apply List.mem_filter.mpr
            refine ⟨hx, ?_⟩
            simp only [Bool.not_eq_true']
            exact Bool.eq_false_iff.mpr (fun hc =>
              hxa ((contains_iff _ _).mp hc))
        · exact Or.inr ⟨m, hm2, hx⟩
  exact main names [] (dotted_ancestor name j) (Or.inr ⟨name, hn, hpart⟩)

/-- Witness for `packages_contain_ancestors`: the non-leaf prefix
`ytdlp_plugins` of the requested `ytdlp_plugins.extractor` is recognized. -/
theorem packages_contain_ancestors_witness :
    ("ytdlp_plugins.extractor" ∈
        ["ytdlp_plugins.extractor", "ytdlp_plugins.postprocessor"] ∧
      0 < (splitDots "ytdlp_plugins.extractor").length) ∧
    dotted_ancestor "ytdlp_plugins.extractor" 0 ∈
      (PluginFinder.ofPackages
        ["ytdlp_plugins.extractor", "ytdlp_plugins.postprocessor"]).packages :=
  ⟨⟨by decide, by decide⟩,
    packages_contain_ancestors
      ["ytdlp_plugins.extractor", "ytdlp_plugins.postprocessor"]
      "ytdlp_plugins.extractor" 0 (by decide) (by decide)⟩

end YP
